import Mathlib

/-!
# Verification of the stargz-snapshotter chunk-cached read engine

Shallow embedding of the verifying, caching, chunk-oriented read engine of
`fs/reader` (file reader, top-level reader verification protocol, batch chunk
processor) together with the test-side fixtures of
`fs/reader/testutil.go`.  The production implementation file is not part of
the sources, so the engine itself is modelled from the specification
(section 4 of the spec); each such definition is marked
`Modelled from the spec:`.  Everything taken from `testutil.go` (decision
tables, mock readers, chunk generators) is translated directly from that
source.
-/

namespace StargzReader

/-! ## Data model: files, chunks, caches -/

/-- Metadata of one regular file inside the archive: its reference
decompressed content (byte list) and the fixed chunk size used when the
archive was built.  Chunk boundaries are multiples of `chunkSize`
(spec section 3, "Chunk descriptor"). -/
structure FileMeta where
  content : List Nat
  chunkSize : Nat
deriving Repr

/-- The recorded size of the file. -/
def FileMeta.size (m : FileMeta) : Nat := m.content.length

/-- Start offset of the chunk containing byte offset `off`
(chunk boundaries are fixed multiples of the chunk size). -/
def chunkStart (m : FileMeta) (off : Nat) : Nat :=
  off / m.chunkSize * m.chunkSize

/-- Length of the chunk that starts at `s`: a full chunk unless the file
ends first. -/
def chunkLen (m : FileMeta) (s : Nat) : Nat :=
  min m.chunkSize (m.size - s)

/-- Modelled from the spec: `ChunkEntryForOffset(offset)` of the underlying
chunked storage source (spec section 4.2 and 6) - resolves a byte offset
within the file to its chunk descriptor; `none` signals an offset beyond
any known chunk (end of file). -/
def chunkEntryForOffset (m : FileMeta) (off : Nat) : Option (Nat × Nat) :=
  if off < m.size then some (chunkStart m off, chunkLen m (chunkStart m off))
  else none

/-- The reference bytes of the byte range `[s, s+l)` of the file. -/
def refSlice (m : FileMeta) (s l : Nat) : List Nat :=
  (m.content.drop s).take l

/-- Archive model: the metadata store's view (inode id to file metadata,
regular files only) together with the archive-build-time grouping of small
chunks into shared underlying regions (minimum-chunk-size batching):
`regionOf fid s` lists the chunk identities `(fileId, chunkStart)` stored in
the same underlying region as chunk `(fid, s)`. -/
structure ArchiveModel where
  files : Nat → Option FileMeta
  regionOf : Nat → Nat → List (Nat × Nat)

/-- Chunk cache key: deterministic function of
`(fileInodeID, chunkStartOffset, chunkSize)` (spec section 3,
"Chunk cache key"); modelled as the triple itself. -/
abbrev CacheKey : Type := Nat × Nat × Nat

/-- The content cache: a committed entry per chunk cache key. -/
def Cache : Type := CacheKey → Option (List Nat)

/-- The empty cache. -/
def emptyCache : Cache := fun _ => none

/-- Environment of a read: whether the underlying storage source succeeds,
which `(fileId, chunkStart)` identities the pluggable chunk verifier
accepts, and whether the archive is in the `SkipVerify` state. -/
structure Env where
  srcOk : Bool
  verifierOk : Nat → Nat → Bool
  skip : Bool

/-- Error kinds of the engine (spec section 7). -/
inductive Err where
  | unknownInode
  | srcFail
  | verifyFail
deriving DecidableEq, Repr

/-! ## File reader (modelled from the spec, section 4.2) -/

/-- Modelled from the spec: committing one chunk of a fetched region to the
cache.  The chunk's bytes are fed through the verifier; only bytes whose
verifier reports success are committed (`SkipVerify` disables verification),
and an already-committed entry is left untouched (cache entries are
immutable, caching is idempotent). -/
def commitChunk (am : ArchiveModel) (env : Env) (c : Cache)
    (fs : Nat × Nat) : Cache :=
  match am.files fs.1 with
  | none => c
  | some m' =>
    let l' := chunkLen m' fs.2
    if env.skip || env.verifierOk fs.1 fs.2 then
      if c (fs.1, fs.2, l') = none then
        fun k => if k = (fs.1, fs.2, l') then some (refSlice m' fs.2 l') else c k
      else c
    else c

/-- Modelled from the spec: committing every chunk of a fetched underlying
region to the cache, each keyed by its own chunk identity. -/
def commitRegion (am : ArchiveModel) (env : Env) :
    Cache → List (Nat × Nat) → Cache
  | c, [] => c
  | c, fs :: R => commitRegion am env (commitChunk am env c fs) R

/-- Modelled from the spec: obtaining the bytes of one chunk `(cs, cl)`
during a read (spec section 4.2): serve the chunk from the cache when
present; otherwise read the chunk's underlying region from the storage
source (one storage fetch), feed it through the chunk verifier (skipped
entirely in `SkipVerify` state; a verifier failure aborts the read with an
error and the requested chunk is not committed) and commit the fetched
region to the cache.  Returns the chunk's bytes, the updated cache and the
number of storage fetches performed. -/
def readChunkStep (am : ArchiveModel) (env : Env) (fid : Nat) (m : FileMeta)
    (c : Cache) (cs cl : Nat) : Except Err (List Nat × Cache × Nat) :=
  match c (fid, cs, cl) with
  | some data => .ok (data, c, 0)
  | none =>
    if env.srcOk then
      if env.skip || env.verifierOk fid cs then
        .ok (refSlice m cs cl, commitRegion am env c (am.regionOf fid cs), 1)
      else .error .verifyFail
    else .error .srcFail

/-- Modelled from the spec: the per-file `ReadAt` loop (spec section 4.2).
Resolves the running offset to a chunk descriptor, obtains the chunk's
bytes through `readChunkStep`, and copies the relevant sub-range into the
output.  Returns the bytes read, the updated cache and the number of
underlying storage fetches.  `fuel` bounds the number of loop iterations;
callers pass the requested length, which suffices because every iteration
serves at least one byte. -/
def readAtLoop (am : ArchiveModel) (env : Env) (fid : Nat) (m : FileMeta) :
    Nat → Cache → Nat → Nat → Except Err (List Nat × Cache × Nat)
  | 0, c, _, _ => .ok ([], c, 0)
  | fuel + 1, c, off, need =>
    if need = 0 then .ok ([], c, 0)
    else
      match chunkEntryForOffset m off with
      | none => .ok ([], c, 0)
      | some (cs, cl) =>
        match readChunkStep am env fid m c cs cl with
        | .error e => .error e
        | .ok (data, c', k) =>
          let use := min need (cl - (off - cs))
          match readAtLoop am env fid m fuel c' (off + use) (need - use) with
          | .error e => .error e
          | .ok (rest, c'', k') =>
            .ok (((data.drop (off - cs)).take use) ++ rest, c'', k + k')

/-- Modelled from the spec: `ReadAt` of an opened file reader - reads
`need` bytes starting at `off`, returning the bytes actually read (the
count is their length, and reaching end of file stops the read without an
error), the updated cache and the number of underlying storage fetches. -/
def readAt (am : ArchiveModel) (env : Env) (fid : Nat) (m : FileMeta)
    (c : Cache) (off need : Nat) : Except Err (List Nat × Cache × Nat) :=
  readAtLoop am env fid m need c off need

/-- Modelled from the spec: `OpenFile(inodeID)` - fails with the
distinguishable not-found error when the metadata store has no entry for
the inode id; no read is attempted at open time. -/
def openFile (am : ArchiveModel) (id : Nat) : Except Err Nat :=
  match am.files id with
  | none => .error .unknownInode
  | some _ => .ok id

/-! ## Wellformedness predicates -/

/-- A wellformed cache: every committed entry keyed `(fid, s, l)` holds
exactly the reference bytes of the chunk of file `fid` starting at `s`. -/
def CacheWF (am : ArchiveModel) (c : Cache) : Prop :=
  ∀ fid s l data, c (fid, s, l) = some data →
    ∃ m, am.files fid = some m ∧ data = refSlice m s (chunkLen m s)

/-- Every chunk is stored in the underlying region it maps to. -/
def RegionSelf (am : ArchiveModel) : Prop :=
  ∀ f s, (f, s) ∈ am.regionOf f s

/-- Environment of a read that encounters no failures: the storage source
succeeds, and either verification is skipped or the verifier accepts every
chunk. -/
def goodEnv (env : Env) : Prop :=
  env.srcOk = true ∧ (env.skip = true ∨ ∀ f s, env.verifierOk f s = true)

/-! ## Chunk arithmetic -/

theorem chunkStart_le (m : FileMeta) (off : Nat) : chunkStart m off ≤ off :=
  Nat.div_mul_le_self off m.chunkSize

theorem lt_chunkStart_add (m : FileMeta) (off : Nat) (h : 0 < m.chunkSize) :
    off < chunkStart m off + m.chunkSize := by
  unfold chunkStart
  have h1 := Nat.div_add_mod off m.chunkSize
  have h2 := Nat.mod_lt off h
  have h3 : off / m.chunkSize * m.chunkSize = m.chunkSize * (off / m.chunkSize) := by
    ring
  omega

theorem chunkStart_eq_of_lt (m : FileMeta) (h : 0 < m.chunkSize) (off x : Nat)
    (h1 : chunkStart m off ≤ x) (h2 : x < chunkStart m off + m.chunkSize) :
    chunkStart m x = chunkStart m off := by
  unfold chunkStart at *
  have hle : off / m.chunkSize ≤ x / m.chunkSize :=
    (Nat.le_div_iff_mul_le h).2 h1
  have hlt : x / m.chunkSize < off / m.chunkSize + 1 := by
    apply (Nat.div_lt_iff_lt_mul h).2
    have h3 : (off / m.chunkSize + 1) * m.chunkSize
        = off / m.chunkSize * m.chunkSize + m.chunkSize := by ring
    omega
  have : x / m.chunkSize = off / m.chunkSize := by omega
  rw [this]

theorem chunkLen_le (m : FileMeta) (s : Nat) : chunkLen m s ≤ m.size - s :=
  Nat.min_le_right _ _

/-! ## Reference-slice algebra -/

theorem refSlice_length (m : FileMeta) (s l : Nat) :
    (refSlice m s l).length = min l (m.size - s) := by
  unfold refSlice FileMeta.size
  rw [List.length_take, List.length_drop]

theorem refSlice_zero (m : FileMeta) (s : Nat) : refSlice m s 0 = [] := by
  simp [refSlice]

theorem refSlice_split (m : FileMeta) (off use rest : Nat) :
    refSlice m off (use + rest) = refSlice m off use ++ refSlice m (off + use) rest := by
  unfold refSlice
  rw [List.take_add, List.drop_drop]

theorem refSlice_chunk_sub (m : FileMeta) (cs cl off use : Nat)
    (h1 : cs ≤ off) (h2 : off - cs + use ≤ cl) :
    ((refSlice m cs cl).drop (off - cs)).take use = refSlice m off use := by
  unfold refSlice
  rw [List.drop_take, List.drop_drop, List.take_take]
  have h3 : cs + (off - cs) = off := by omega
  have h4 : min use (cl - (off - cs)) = use := by omega
  rw [h3, h4]

/-! ## Commit lemmas -/

theorem commitChunk_monotone (am : ArchiveModel) (env : Env) (c : Cache)
    (fs : Nat × Nat) (k : CacheKey) (v : List Nat) (h : c k = some v) :
    commitChunk am env c fs k = some v := by
  unfold commitChunk
  cases hf : am.files fs.1 with
  | none => exact h
  | some m' =>
    simp only
    split
    · split
      · next hnone =>
        by_cases hk : k = (fs.1, fs.2, chunkLen m' fs.2)
        · rw [hk] at h; rw [h] at hnone; cases hnone
        · simp [hk, h]
      · exact h
    · exact h

theorem commitChunk_wf (am : ArchiveModel) (env : Env) (c : Cache)
    (fs : Nat × Nat) (h : CacheWF am c) : CacheWF am (commitChunk am env c fs) := by
  unfold commitChunk
  cases hf : am.files fs.1 with
  | none => exact h
  | some m' =>
    simp only
    split
    · split
      · intro fid s l data hd
        simp only [] at hd
        split at hd
        · next hk =>
          obtain ⟨e1, e2, e3⟩ : fid = fs.1 ∧ s = fs.2 ∧ l = chunkLen m' fs.2 := by
            simpa [Prod.ext_iff] using hk
          injection hd with hd
          exact ⟨m', e1 ▸ hf, by rw [← hd, e2]⟩
        · exact h fid s l data hd
      · exact h
    · exact h

theorem commitChunk_self (am : ArchiveModel) (env : Env) (c : Cache)
    (fs : Nat × Nat) (m' : FileMeta) (h : CacheWF am c)
    (hf : am.files fs.1 = some m')
    (henv : env.skip = true ∨ ∀ f s, env.verifierOk f s = true) :
    commitChunk am env c fs (fs.1, fs.2, chunkLen m' fs.2)
      = some (refSlice m' fs.2 (chunkLen m' fs.2)) := by
  unfold commitChunk
  rw [hf]
  simp only
  have hcond : (env.skip || env.verifierOk fs.1 fs.2) = true := by
    rcases henv with h1 | h1
    · simp [h1]
    · simp [h1 fs.1 fs.2]
  rw [hcond]
  cases hnone : c (fs.1, fs.2, chunkLen m' fs.2) with
  | none => simp [hnone]
  | some v =>
    obtain ⟨m'', hm'', hv⟩ := h fs.1 fs.2 _ v hnone
    rw [hf] at hm''
    injection hm'' with e
    subst e
    simp [hnone, hv]

theorem commitRegion_monotone (am : ArchiveModel) (env : Env) :
    ∀ (R : List (Nat × Nat)) (c : Cache) (k : CacheKey) (v : List Nat),
      c k = some v → commitRegion am env c R k = some v
  | [], _, _, _, h => h
  | fs :: R, c, k, v, h =>
    commitRegion_monotone am env R _ k v (commitChunk_monotone am env c fs k v h)

theorem commitRegion_wf (am : ArchiveModel) (env : Env) :
    ∀ (R : List (Nat × Nat)) (c : Cache), CacheWF am c →
      CacheWF am (commitRegion am env c R)
  | [], _, h => h
  | fs :: R, c, h => commitRegion_wf am env R _ (commitChunk_wf am env c fs h)

theorem commitRegion_mem (am : ArchiveModel) (env : Env)
    (henv : env.skip = true ∨ ∀ f s, env.verifierOk f s = true) :
    ∀ (R : List (Nat × Nat)) (c : Cache), CacheWF am c →
      ∀ fs ∈ R, ∀ m', am.files fs.1 = some m' →
        commitRegion am env c R (fs.1, fs.2, chunkLen m' fs.2)
          = some (refSlice m' fs.2 (chunkLen m' fs.2)) := by
  intro R
  induction R with
  | nil => intro c _ fs hmem; cases hmem
  | cons g R ihR =>
    intro c hwf fs hmem m' hf
    rcases List.mem_cons.1 hmem with he | hmem'
    · subst he
      exact commitRegion_monotone am env R _ _ _
        (commitChunk_self am env c fs m' hwf hf henv)
    · exact ihR _ (commitChunk_wf am env c g hwf) fs hmem' m' hf

theorem chunk_facts (m : FileMeta) (off : Nat) (hcs : 0 < m.chunkSize)
    (hoff : off < m.size) :
    chunkStart m off ≤ off ∧
    off < chunkStart m off + chunkLen m (chunkStart m off) ∧
    chunkStart m off + chunkLen m (chunkStart m off) ≤ m.size ∧
    chunkLen m (chunkStart m off) ≤ m.chunkSize := by
  have h1 := chunkStart_le m off
  have h2 := lt_chunkStart_add m off hcs
  unfold chunkLen
  omega

/-- Obtaining one chunk during a failure-free read: the chunk's reference
bytes are returned, the cache stays wellformed and only grows, the chunk
ends up committed, and a cache hit performs no storage fetch and leaves the
cache untouched. -/
theorem readChunkStep_ok (am : ArchiveModel) (env : Env) (fid : Nat)
    (m : FileMeta) (c : Cache) (cs : Nat)
    (hm : am.files fid = some m) (henv : goodEnv env) (hself : RegionSelf am)
    (hwf : CacheWF am c) :
    ∃ c₁ k₁,
      readChunkStep am env fid m c cs (chunkLen m cs)
        = .ok (refSlice m cs (chunkLen m cs), c₁, k₁) ∧
      CacheWF am c₁ ∧
      (∀ key v, c key = some v → c₁ key = some v) ∧
      c₁ (fid, cs, chunkLen m cs) ≠ none ∧
      (c (fid, cs, chunkLen m cs) ≠ none → k₁ = 0 ∧ c₁ = c) := by
  unfold readChunkStep
  cases hc : c (fid, cs, chunkLen m cs) with
  | some data =>
    obtain ⟨m'', hm'', hv⟩ := hwf fid cs _ data hc
    rw [hm] at hm''
    injection hm'' with e
    subst e
    refine ⟨c, 0, by rw [hv], hwf, fun _ _ h => h, by rw [hc]; simp, fun _ => ⟨rfl, rfl⟩⟩
  | none =>
    rw [henv.1]
    have hcond : (env.skip || env.verifierOk fid cs) = true := by
      rcases henv.2 with h1 | h1
      · simp [h1]
      · simp [h1 fid cs]
    rw [hcond]
    simp only [if_pos rfl]
    refine ⟨commitRegion am env c (am.regionOf fid cs), 1, rfl,
      commitRegion_wf am env _ c hwf,
      fun k v h => commitRegion_monotone am env _ c k v h, ?_, ?_⟩
    · rw [commitRegion_mem am env henv.2 _ c hwf (fid, cs) (hself fid cs) m hm]
      simp
    · intro hcon; exact absurd rfl hcon

theorem readAtLoop_succ_eq (am : ArchiveModel) (env : Env) (fid : Nat)
    (m : FileMeta) (fuel : Nat) (c : Cache) (off need : Nat)
    (hneed : need ≠ 0) (hoff : off < m.size) :
    readAtLoop am env fid m (fuel + 1) c off need =
      match readChunkStep am env fid m c (chunkStart m off)
          (chunkLen m (chunkStart m off)) with
      | .error e => .error e
      | .ok (data, c', k) =>
        let use := min need (chunkLen m (chunkStart m off) - (off - chunkStart m off))
        match readAtLoop am env fid m fuel c' (off + use) (need - use) with
        | .error e => .error e
        | .ok (rest, c'', k') =>
          .ok (((data.drop (off - chunkStart m off)).take use) ++ rest, c'', k + k') := by
  rw [readAtLoop, if_neg hneed]
  unfold chunkEntryForOffset
  rw [if_pos hoff]

/-- The central invariant of the modelled `ReadAt` loop: under a
failure-free environment and a wellformed cache, the loop returns exactly
the reference bytes of the requested range clipped to the file size, keeps
the cache wellformed, only adds cache entries, leaves every chunk that
intersects the served range committed, and performs no storage fetch when
every such chunk was already cached. -/
theorem readAtLoop_ok (am : ArchiveModel) (env : Env) (fid : Nat) (m : FileMeta)
    (hm : am.files fid = some m) (hcs : 0 < m.chunkSize)
    (henv : goodEnv env) (hself : RegionSelf am) :
    ∀ (fuel : Nat) (c : Cache) (off need : Nat), CacheWF am c → need ≤ fuel →
    ∃ c' k,
      readAtLoop am env fid m fuel c off need
        = .ok (refSlice m off (min need (m.size - off)), c', k) ∧
      CacheWF am c' ∧
      (∀ key v, c key = some v → c' key = some v) ∧
      (∀ x, off ≤ x → x < off + min need (m.size - off) →
        c' (fid, chunkStart m x, chunkLen m (chunkStart m x)) ≠ none) ∧
      ((∀ x, off ≤ x → x < off + min need (m.size - off) →
        c (fid, chunkStart m x, chunkLen m (chunkStart m x)) ≠ none) → k = 0) := by
  intro fuel
  induction fuel with
  | zero =>
    intro c off need hwf hfuel
    have h0 : need = 0 := Nat.le_zero.1 hfuel
    subst h0
    exact ⟨c, 0, by simp [readAtLoop, refSlice_zero], hwf, fun _ _ h => h,
      fun x hx1 hx2 => absurd hx2 (by omega), fun _ => rfl⟩
  | succ fuel ih =>
    intro c off need hwf hfuel
    by_cases hneed : need = 0
    · subst hneed
      exact ⟨c, 0, by simp [readAtLoop, refSlice_zero], hwf, fun _ _ h => h,
        fun x hx1 hx2 => absurd hx2 (by omega), fun _ => rfl⟩
    by_cases hsize : off < m.size
    case neg =>
      have hce : chunkEntryForOffset m off = none := by
        unfold chunkEntryForOffset; rw [if_neg hsize]
      have hmin : min need (m.size - off) = 0 := by omega
      refine ⟨c, 0, ?_, hwf, fun _ _ h => h,
        fun x hx1 hx2 => absurd hx2 (by omega), fun _ => rfl⟩
      rw [readAtLoop, if_neg hneed, hce, hmin, refSlice_zero]
    case pos =>
      obtain ⟨hf1, hf2, hf3, hf4⟩ := chunk_facts m off hcs hsize
      obtain ⟨c₁, k₁, hstep, hwf₁, hmono₁, hin₁, hhit₁⟩ :=
        readChunkStep_ok am env fid m c (chunkStart m off) hm henv hself hwf
      have huse1 : 1 ≤ min need (chunkLen m (chunkStart m off) - (off - chunkStart m off)) := by
        omega
      obtain ⟨c', k', hrec, hwf', hmono', hin', hhit'⟩ :=
        ih c₁ (off + min need (chunkLen m (chunkStart m off) - (off - chunkStart m off)))
          (need - min need (chunkLen m (chunkStart m off) - (off - chunkStart m off)))
          hwf₁ (by omega)
      refine ⟨c', k₁ + k', ?_, hwf', fun k v h => hmono' k v (hmono₁ k v h), ?_, ?_⟩
      · rw [readAtLoop_succ_eq am env fid m fuel c off need hneed hsize, hstep]
        simp only []
        rw [hrec]
        simp only []
        have hsub : ((refSlice m (chunkStart m off) (chunkLen m (chunkStart m off))).drop
              (off - chunkStart m off)).take
              (min need (chunkLen m (chunkStart m off) - (off - chunkStart m off)))
            = refSlice m off (min need (chunkLen m (chunkStart m off) - (off - chunkStart m off))) := by
          apply refSlice_chunk_sub m _ _ _ _ hf1
          omega
        rw [hsub, ← refSlice_split]
        have hsum : min need (chunkLen m (chunkStart m off) - (off - chunkStart m off))
              + min (need - min need (chunkLen m (chunkStart m off) - (off - chunkStart m off)))
                (m.size - (off + min need (chunkLen m (chunkStart m off) - (off - chunkStart m off))))
            = min need (m.size - off) := by omega
        rw [hsum]
      · intro x hx1 hx2
        by_cases hxu : x < off + min need (chunkLen m (chunkStart m off) - (off - chunkStart m off))
        · have hcs_x : chunkStart m x = chunkStart m off :=
            chunkStart_eq_of_lt m hcs off x (by omega) (by omega)
          rw [hcs_x]
          intro hnone
          cases hc1 : c₁ (fid, chunkStart m off, chunkLen m (chunkStart m off)) with
          | none => exact hin₁ hc1
          | some v => rw [hmono' _ _ hc1] at hnone; cases hnone
        · exact hin' x (by omega) (by omega)
      · intro hall
        have h0 : c (fid, chunkStart m off, chunkLen m (chunkStart m off)) ≠ none :=
          hall off (le_refl off) (by omega)
        obtain ⟨hk10, hc1c⟩ := hhit₁ h0
        have hk'0 : k' = 0 := by
          apply hhit'
          intro x hx1 hx2
          rw [hc1c]
          exact hall x (by omega) (by omega)
        omega

/-- A read whose every touched chunk is already committed in the cache is
served entirely from the cache: it succeeds with the reference bytes, makes
zero storage fetches and leaves the cache unchanged, regardless of whether
the storage source or the verifier would fail. -/
theorem readAtLoop_allhit (am : ArchiveModel) (env : Env) (fid : Nat)
    (m : FileMeta) (hm : am.files fid = some m) (hcs : 0 < m.chunkSize) :
    ∀ (fuel : Nat) (c : Cache) (off need : Nat), CacheWF am c → need ≤ fuel →
    (∀ x, off ≤ x → x < off + min need (m.size - off) →
      c (fid, chunkStart m x, chunkLen m (chunkStart m x)) ≠ none) →
    readAtLoop am env fid m fuel c off need
      = .ok (refSlice m off (min need (m.size - off)), c, 0) := by
  intro fuel
  induction fuel with
  | zero =>
    intro c off need hwf hfuel hall
    have h0 : need = 0 := Nat.le_zero.1 hfuel
    subst h0
    simp [readAtLoop, refSlice_zero]
  | succ fuel ih =>
    intro c off need hwf hfuel hall
    by_cases hneed : need = 0
    · subst hneed
      simp [readAtLoop, refSlice_zero]
    by_cases hsize : off < m.size
    case neg =>
      have hce : chunkEntryForOffset m off = none := by
        unfold chunkEntryForOffset; rw [if_neg hsize]
      have hmin : min need (m.size - off) = 0 := by omega
      rw [readAtLoop, if_neg hneed, hce, hmin, refSlice_zero]
    case pos =>
      obtain ⟨hf1, hf2, hf3, hf4⟩ := chunk_facts m off hcs hsize
      have h0 : c (fid, chunkStart m off, chunkLen m (chunkStart m off)) ≠ none :=
        hall off (le_refl off) (by omega)
      cases hc : c (fid, chunkStart m off, chunkLen m (chunkStart m off)) with
      | none => exact absurd hc h0
      | some data =>
        obtain ⟨m'', hm'', hv⟩ := hwf fid (chunkStart m off) _ data hc
        rw [hm] at hm''
        injection hm'' with e
        subst e
        have hstep : readChunkStep am env fid m c (chunkStart m off)
            (chunkLen m (chunkStart m off)) = .ok (data, c, 0) := by
          unfold readChunkStep; rw [hc]
        have hrec := ih c
          (off + min need (chunkLen m (chunkStart m off) - (off - chunkStart m off)))
          (need - min need (chunkLen m (chunkStart m off) - (off - chunkStart m off)))
          hwf (by omega) (fun x hx1 hx2 => hall x (by omega) (by omega))
        rw [readAtLoop_succ_eq am env fid m fuel c off need hneed hsize, hstep]
        simp only []
        rw [hrec]
        simp only []
        rw [hv]
        have hsub : ((refSlice m (chunkStart m off) (chunkLen m (chunkStart m off))).drop
              (off - chunkStart m off)).take
              (min need (chunkLen m (chunkStart m off) - (off - chunkStart m off)))
            = refSlice m off (min need (chunkLen m (chunkStart m off) - (off - chunkStart m off))) := by
          apply refSlice_chunk_sub m _ _ _ _ hf1
          omega
        rw [hsub, ← refSlice_split]
        have hsum : min need (chunkLen m (chunkStart m off) - (off - chunkStart m off))
              + min (need - min need (chunkLen m (chunkStart m off) - (off - chunkStart m off)))
                (m.size - (off + min need (chunkLen m (chunkStart m off) - (off - chunkStart m off))))
            = min need (m.size - off) := by omega
        rw [hsum]

theorem chunkStart_idem (m : FileMeta) (p : Nat) (h : 0 < m.chunkSize) :
    chunkStart m (chunkStart m p) = chunkStart m p := by
  unfold chunkStart
  rw [Nat.mul_div_cancel _ h]

/-- Errors of obtaining one chunk are storage or verification failures. -/
theorem readChunkStep_err (am : ArchiveModel) (env : Env) (fid : Nat)
    (m : FileMeta) (c : Cache) (cs cl : Nat) (e : Err)
    (h : readChunkStep am env fid m c cs cl = .error e) :
    e = Err.srcFail ∨ e = Err.verifyFail := by
  unfold readChunkStep at h
  split at h
  · cases h
  · split at h
    · split at h
      · cases h
      · injection h with h; exact Or.inr h.symm
    · injection h with h; exact Or.inl h.symm

/-- Errors of the whole read loop are storage or verification failures,
never the open-time unknown-inode failure. -/
theorem readAtLoop_err (am : ArchiveModel) (env : Env) (fid : Nat) (m : FileMeta) :
    ∀ (fuel : Nat) (c : Cache) (off need : Nat) (e : Err),
      readAtLoop am env fid m fuel c off need = .error e →
      e = Err.srcFail ∨ e = Err.verifyFail := by
  intro fuel
  induction fuel with
  | zero => intro c off need e h; cases h
  | succ fuel ih =>
    intro c off need e h
    rw [readAtLoop] at h
    split at h
    · cases h
    · split at h
      · cases h
      · next cs cl _ =>
        cases hstep : readChunkStep am env fid m c cs cl with
        | error e' =>
          rw [hstep] at h
          injection h with h
          exact h ▸ readChunkStep_err am env fid m c cs cl e' hstep
        | ok t =>
          obtain ⟨data, c', k⟩ := t
          rw [hstep] at h
          simp only [] at h
          cases hrec : readAtLoop am env fid m fuel c'
              (off + min need (cl - (off - cs))) (need - min need (cl - (off - cs))) with
          | error e'' =>
            rw [hrec] at h
            injection h with h
            exact h ▸ ih _ _ _ e'' hrec
          | ok t' =>
            obtain ⟨rest, c'', k'⟩ := t'
            rw [hrec] at h
            cases h

/-! ## Sample fixtures (from `testutil.go`): `sampleData1 = "0123456789"`,
`sampleChunkSize = 3`, and the mock environments of `testFailReader`. -/

/-- The bytes of the sample data string `"0123456789"`. -/
def sampleData1 : List Nat := [48, 49, 50, 51, 52, 53, 54, 55, 56, 57]

/-- The sample file, chunked with `sampleChunkSize = 3`. -/
def sampleMeta : FileMeta := ⟨sampleData1, 3⟩

/-- A one-file archive holding the sample file at inode 1, with the default
one-chunk-per-region layout. -/
def sampleArchive : ArchiveModel :=
  ⟨fun id => if id = 1 then some sampleMeta else none, fun f s => [(f, s)]⟩

/-- Environment in which the storage source succeeds and the verifier
accepts every chunk. -/
def passEnv : Env := ⟨true, fun _ _ => true, false⟩

/-- Environment of `testFailReader`: the underlying storage read succeeds
iff `rs` (`breakReaderAt.success`) and the chunk verifier accepts iff `vs`
(`testChunkVerifier.success`); verification is enabled (TOC verified). -/
def failTestEnv (rs vs : Bool) : Env := ⟨rs, fun _ _ => vs, false⟩

theorem sampleArchive_regionSelf : RegionSelf sampleArchive := by
  intro f s
  simp [sampleArchive]

theorem emptyCache_wf (am : ArchiveModel) : CacheWF am emptyCache :=
  fun _ _ _ _ h => nomatch h

/-! ## Claim theorems -/

/-- C1: for every file size, chunk size, read offset and read length within
bounds, and for every initial cache population that is wellformed (empty,
edge-filled and sparse caches of the test all populate chunks with their
reference bytes), `ReadAt` returns exactly the bytes a direct read of the
reference content yields at that offset, and the returned byte count equals
`min(requested length, bytes remaining in the file)`. -/
theorem C1_readAt_matches_reference (am : ArchiveModel) (env : Env) (fid : Nat)
    (m : FileMeta) (c : Cache) (off need : Nat)
    (hm : am.files fid = some m) (hcs : 0 < m.chunkSize)
    (henv : goodEnv env) (hself : RegionSelf am) (hwf : CacheWF am c) :
    ∃ c' k,
      readAt am env fid m c off need
        = .ok (refSlice m off (min need (m.size - off)), c', k) ∧
      (refSlice m off (min need (m.size - off))).length
        = min need (m.size - off) := by
  obtain ⟨c', k, heq, _⟩ :=
    readAtLoop_ok am env fid m hm hcs henv hself need c off need hwf (le_refl need)
  refine ⟨c', k, heq, ?_⟩
  rw [refSlice_length]
  omega

/-- Witness for C1 at the sample file of `testFileReadAt`: a 4-byte read at
offset 2 of the ten-byte sample data with an empty cache. -/
theorem C1_readAt_matches_reference_witness :
    ∃ c' k,
      readAt sampleArchive passEnv 1 sampleMeta emptyCache 2 4
        = .ok (refSlice sampleMeta 2 (min 4 (sampleMeta.size - 2)), c', k) ∧
      (refSlice sampleMeta 2 (min 4 (sampleMeta.size - 2))).length
        = min 4 (sampleMeta.size - 2) :=
  C1_readAt_matches_reference sampleArchive passEnv 1 sampleMeta emptyCache 2 4
    rfl (by decide) ⟨rfl, Or.inr fun _ _ => rfl⟩ sampleArchive_regionSelf
    (emptyCache_wf sampleArchive)

/-- C2: after any successful `ReadAt` whose served range covers the chunk
`C` containing position `p`, that chunk is committed in the cache under its
chunk identity holding exactly its reference bytes, and every subsequent
`ReadAt` covering only `C` is served with zero calls to the underlying
storage source (and leaves the cache unchanged). -/
theorem C2_cache_hit_after_covering_read (am : ArchiveModel) (env : Env)
    (fid : Nat) (m : FileMeta) (c : Cache) (off need p : Nat)
    (hm : am.files fid = some m) (hcs : 0 < m.chunkSize)
    (henv : goodEnv env) (hself : RegionSelf am) (hwf : CacheWF am c)
    (hp : p < m.size)
    (hcov1 : off ≤ chunkStart m p)
    (hcov2 : chunkStart m p + chunkLen m (chunkStart m p)
      ≤ off + min need (m.size - off)) :
    ∃ c₁ k₁,
      readAt am env fid m c off need
        = .ok (refSlice m off (min need (m.size - off)), c₁, k₁) ∧
      c₁ (fid, chunkStart m p, chunkLen m (chunkStart m p))
        = some (refSlice m (chunkStart m p) (chunkLen m (chunkStart m p))) ∧
      ∀ off₂ need₂, chunkStart m p ≤ off₂ →
        off₂ + need₂ ≤ chunkStart m p + chunkLen m (chunkStart m p) →
        readAt am env fid m c₁ off₂ need₂
          = .ok (refSlice m off₂ (min need₂ (m.size - off₂)), c₁, 0) := by
  obtain ⟨hq1, hq2, hq3, hq4⟩ := chunk_facts m p hcs hp
  have hqs : chunkStart m (chunkStart m p) = chunkStart m p := chunkStart_idem m p hcs
  obtain ⟨c₁, k₁, heq, hwf₁, _, hin₁, _⟩ :=
    readAtLoop_ok am env fid m hm hcs henv hself need c off need hwf (le_refl need)
  have hchunk : c₁ (fid, chunkStart m p, chunkLen m (chunkStart m p))
      = some (refSlice m (chunkStart m p) (chunkLen m (chunkStart m p))) := by
    have h1 := hin₁ (chunkStart m p) hcov1 (by omega)
    rw [hqs] at h1
    cases hc : c₁ (fid, chunkStart m p, chunkLen m (chunkStart m p)) with
    | none => exact absurd hc h1
    | some data =>
      obtain ⟨m'', hm'', hv⟩ := hwf₁ fid (chunkStart m p) _ data hc
      rw [hm] at hm''
      injection hm'' with e
      subst e
      rw [hv]
  refine ⟨c₁, k₁, heq, hchunk, ?_⟩
  intro off₂ need₂ h2a h2b
  apply readAtLoop_allhit am env fid m hm hcs need₂ c₁ off₂ need₂ hwf₁ (le_refl need₂)
  intro x hx1 hx2
  have hxlt : x < chunkStart m p + chunkLen m (chunkStart m p) := by omega
  have hx_cs : chunkStart m x = chunkStart m p := by
    have := chunkStart_eq_of_lt m hcs (chunkStart m p) x (by omega) (by omega)
    rwa [hqs] at this
  rw [hx_cs]
  intro hnone
  rw [hchunk] at hnone
  cases hnone

/-- Witness for C2: a full read of the ten-byte sample file covers the
middle chunk `[3, 6)`; afterwards that chunk is cached with its reference
bytes and reads inside it are pure cache hits. -/
theorem C2_cache_hit_after_covering_read_witness :
    ∃ c₁ k₁,
      readAt sampleArchive passEnv 1 sampleMeta emptyCache 0 10
        = .ok (refSlice sampleMeta 0 (min 10 (sampleMeta.size - 0)), c₁, k₁) ∧
      c₁ (1, chunkStart sampleMeta 4, chunkLen sampleMeta (chunkStart sampleMeta 4))
        = some (refSlice sampleMeta (chunkStart sampleMeta 4)
            (chunkLen sampleMeta (chunkStart sampleMeta 4))) ∧
      ∀ off₂ need₂, chunkStart sampleMeta 4 ≤ off₂ →
        off₂ + need₂ ≤ chunkStart sampleMeta 4
          + chunkLen sampleMeta (chunkStart sampleMeta 4) →
        readAt sampleArchive passEnv 1 sampleMeta c₁ off₂ need₂
          = .ok (refSlice sampleMeta off₂ (min need₂ (sampleMeta.size - off₂)), c₁, 0) :=
  C2_cache_hit_after_covering_read sampleArchive passEnv 1 sampleMeta emptyCache
    0 10 4 rfl (by decide) ⟨rfl, Or.inr fun _ _ => rfl⟩ sampleArchive_regionSelf
    (emptyCache_wf sampleArchive) (by decide) (by decide) (by decide)

/-- When the storage source or the verifier fails, a read that touches any
uncached chunk of its requested range errors: cached chunks before the
first miss are served, and the first miss aborts the read with the storage
error (checked first) or the verification error. -/
theorem readAtLoop_miss_err (am : ArchiveModel) (fid : Nat) (m : FileMeta)
    (rs vs : Bool) (hbad : rs = false ∨ vs = false) (hcs : 0 < m.chunkSize) :
    ∀ (fuel : Nat) (c : Cache) (off need : Nat), need ≤ fuel →
    (∃ x, off ≤ x ∧ x < off + min need (m.size - off) ∧
      c (fid, chunkStart m x, chunkLen m (chunkStart m x)) = none) →
    readAtLoop am (failTestEnv rs vs) fid m fuel c off need
      = .error (if rs then Err.verifyFail else Err.srcFail) := by
  intro fuel
  induction fuel with
  | zero =>
    intro c off need hfuel hex
    obtain ⟨x, hx1, hx2, _⟩ := hex
    exact absurd hx2 (by omega)
  | succ fuel ih =>
    intro c off need hfuel hex
    obtain ⟨x, hx1, hx2, hxnone⟩ := hex
    by_cases hneed : need = 0
    · subst hneed
      exact absurd hx2 (by omega)
    by_cases hsize : off < m.size
    case neg =>
      exact absurd hx2 (by omega)
    case pos =>
      obtain ⟨hf1, hf2, hf3, hf4⟩ := chunk_facts m off hcs hsize
      cases hc : c (fid, chunkStart m off, chunkLen m (chunkStart m off)) with
      | none =>
        have hstep : readChunkStep am (failTestEnv rs vs) fid m c (chunkStart m off)
            (chunkLen m (chunkStart m off))
            = .error (if rs then Err.verifyFail else Err.srcFail) := by
          unfold readChunkStep failTestEnv
          rw [hc]
          cases rs with
          | false => simp
          | true =>
            have hvs : vs = false := by
              rcases hbad with h | h
              · cases h
              · exact h
            subst hvs
            simp
        rw [readAtLoop_succ_eq am (failTestEnv rs vs) fid m fuel c off need
          hneed hsize, hstep]
      | some data =>
        have hstep : readChunkStep am (failTestEnv rs vs) fid m c (chunkStart m off)
            (chunkLen m (chunkStart m off)) = .ok (data, c, 0) := by
          unfold readChunkStep
          rw [hc]
        have hxge : off + min need
            (chunkLen m (chunkStart m off) - (off - chunkStart m off)) ≤ x := by
          by_contra hlt
          push_neg at hlt
          have hxc : chunkStart m x = chunkStart m off :=
            chunkStart_eq_of_lt m hcs off x (by omega) (by omega)
          rw [hxc, hc] at hxnone
          cases hxnone
        have hrec := ih c
          (off + min need (chunkLen m (chunkStart m off) - (off - chunkStart m off)))
          (need - min need (chunkLen m (chunkStart m off) - (off - chunkStart m off)))
          (by omega)
          ⟨x, by omega, by omega, hxnone⟩
        rw [readAtLoop_succ_eq am (failTestEnv rs vs) fid m fuel c off need
          hneed hsize, hstep]
        simp only []
        rw [hrec]

/-- C8: with verification enabled, `ReadAt` succeeds with the full
requested data when both the storage source and the verifier succeed;
it returns an error whenever either fails and any needed chunk of the
requested range is not cached; and when the requested bytes are fully
served from the cache it succeeds with zero storage fetches, bypassing
both the storage source and the verifier. -/
theorem C8_readAt_failure_modes (am : ArchiveModel) (fid : Nat) (m : FileMeta)
    (rs vs : Bool) (hm : am.files fid = some m) (hcs : 0 < m.chunkSize)
    (hself : RegionSelf am) :
    (rs = true → vs = true → ∀ c off need, CacheWF am c →
      ∃ c' k, readAt am (failTestEnv rs vs) fid m c off need
        = .ok (refSlice m off (min need (m.size - off)), c', k)) ∧
    ((rs = false ∨ vs = false) → ∀ c off need,
      (∃ x, off ≤ x ∧ x < off + min need (m.size - off) ∧
        c (fid, chunkStart m x, chunkLen m (chunkStart m x)) = none) →
      readAt am (failTestEnv rs vs) fid m c off need
        = .error (if rs then Err.verifyFail else Err.srcFail)) ∧
    (∀ c off need, CacheWF am c →
      (∀ x, off ≤ x → x < off + min need (m.size - off) →
        c (fid, chunkStart m x, chunkLen m (chunkStart m x)) ≠ none) →
      readAt am (failTestEnv rs vs) fid m c off need
        = .ok (refSlice m off (min need (m.size - off)), c, 0)) := by
  refine ⟨?_, ?_, ?_⟩
  · intro hrs hvs c off need hwf
    subst hrs; subst hvs
    obtain ⟨c', k, heq, _⟩ := readAtLoop_ok am (failTestEnv true true) fid m hm hcs
      ⟨rfl, Or.inr fun _ _ => rfl⟩ hself need c off need hwf (le_refl need)
    exact ⟨c', k, heq⟩
  · intro hbad c off need hex
    rw [readAt]
    exact readAtLoop_miss_err am fid m rs vs hbad hcs need c off need
      (le_refl need) hex
  · intro c off need hwf hall
    exact readAtLoop_allhit am (failTestEnv rs vs) fid m hm hcs need c off need
      hwf (le_refl need) hall

/-- The edge-filled cache of `testFileReadAt`: the first chunk `[0, 3)` of
the sample file pre-committed with its reference bytes, the rest absent. -/
def edgeCache : Cache := fun k => if k = (1, 0, 3) then some [48, 49, 50] else none

/-- Witness for C8: with the verifier failing (`testChunkVerifier.success =
false`), a whole-file read whose first chunk is cached but whose second
chunk `[3, 6)` is not fails with a verification error. -/
theorem C8_readAt_failure_modes_witness :
    readAt sampleArchive (failTestEnv true false) 1 sampleMeta edgeCache 0 10
      = .error (if true then Err.verifyFail else Err.srcFail) :=
  (C8_readAt_failure_modes sampleArchive 1 sampleMeta true false rfl (by decide)
    sampleArchive_regionSelf).2.1 (Or.inr rfl) edgeCache 0 10
    ⟨3, by decide, by decide, by decide⟩

/-- C9: opening an inode id with no metadata entry fails with the
unknown-inode error, which is distinct from every read-time failure (read
errors are storage or verification failures); opening an existing
regular-file inode succeeds regardless of whether later reads would
fail. -/
theorem C9_openFile_unknown_inode (am : ArchiveModel) :
    (∀ id, am.files id = none → openFile am id = .error .unknownInode) ∧
    (Err.unknownInode ≠ Err.srcFail ∧ Err.unknownInode ≠ Err.verifyFail) ∧
    (∀ env fid m fuel c off need e,
      readAtLoop am env fid m fuel c off need = .error e →
      e = Err.srcFail ∨ e = Err.verifyFail) ∧
    (∀ id m, am.files id = some m → openFile am id = .ok id) := by
  refine ⟨?_, ⟨by decide, by decide⟩, ?_, ?_⟩
  · intro id h
    unfold openFile
    rw [h]
  · intro env fid m fuel c off need e h
    exact readAtLoop_err am env fid m fuel c off need e h
  · intro id m h
    unfold openFile
    rw [h]

/-- Witness for C9 at the sample archive: inode 2 has no entry and fails
with the unknown-inode error, inode 1 exists and opens. -/
theorem C9_openFile_unknown_inode_witness :
    openFile sampleArchive 2 = .error .unknownInode ∧
    openFile sampleArchive 1 = .ok 1 :=
  ⟨(C9_openFile_unknown_inode sampleArchive).1 2 rfl,
   (C9_openFile_unknown_inode sampleArchive).2.2.2 1 sampleMeta rfl⟩

theorem readAtLoop_zeroNeed (am : ArchiveModel) (env : Env) (fid : Nat)
    (m : FileMeta) : ∀ (fuel : Nat) (c : Cache) (off : Nat),
    readAtLoop am env fid m fuel c off 0 = .ok ([], c, 0)
  | 0, _, _ => rfl
  | fuel + 1, c, off => by rw [readAtLoop]; simp

/-- C10: when a successful `ReadAt` misses a chunk whose underlying region
also contains chunks of other small files (grouped by the
minimum-chunk-size batching at archive build time), the engine commits
those neighboring files' chunks to the cache as well, keyed by each chunk's
own identity and holding exactly that chunk's reference bytes, so that
subsequent `ReadAt` calls on those neighboring files complete with zero
calls to the underlying storage source. -/
theorem C10_preread_commits_region_neighbors (am : ArchiveModel) (env : Env)
    (fid : Nat) (m : FileMeta) (c : Cache) (off need : Nat)
    (henv : goodEnv env) (hwf : CacheWF am c)
    (hoff : off < m.size) (hneed : need ≠ 0)
    (hone : off - chunkStart m off + need ≤ chunkLen m (chunkStart m off))
    (hmiss : c (fid, chunkStart m off, chunkLen m (chunkStart m off)) = none) :
    ∃ c₁,
      readAt am env fid m c off need = .ok (refSlice m off need, c₁, 1) ∧
      (∀ fs ∈ am.regionOf fid (chunkStart m off), ∀ m', am.files fs.1 = some m' →
        c₁ (fs.1, fs.2, chunkLen m' fs.2)
          = some (refSlice m' fs.2 (chunkLen m' fs.2))) ∧
      (∀ fs ∈ am.regionOf fid (chunkStart m off), ∀ m', am.files fs.1 = some m' →
        0 < m'.chunkSize → fs.2 = chunkStart m' fs.2 → fs.2 < m'.size →
        ∀ off₂ need₂, fs.2 ≤ off₂ → off₂ + need₂ ≤ fs.2 + chunkLen m' fs.2 →
          readAt am env fs.1 m' c₁ off₂ need₂
            = .ok (refSlice m' off₂ (min need₂ (m'.size - off₂)), c₁, 0)) := by
  obtain ⟨n, rfl⟩ : ∃ n, need = n + 1 := ⟨need - 1, by omega⟩
  have hcond : (env.skip || env.verifierOk fid (chunkStart m off)) = true := by
    rcases henv.2 with h1 | h1
    · simp [h1]
    · simp [h1 fid (chunkStart m off)]
  have hstep : readChunkStep am env fid m c (chunkStart m off)
      (chunkLen m (chunkStart m off))
      = .ok (refSlice m (chunkStart m off) (chunkLen m (chunkStart m off)),
             commitRegion am env c (am.regionOf fid (chunkStart m off)), 1) := by
    unfold readChunkStep
    rw [hmiss, henv.1, hcond]
    simp
  have hwf₁ : CacheWF am (commitRegion am env c (am.regionOf fid (chunkStart m off))) :=
    commitRegion_wf am env _ c hwf
  refine ⟨commitRegion am env c (am.regionOf fid (chunkStart m off)), ?_, ?_, ?_⟩
  · rw [readAt, readAtLoop_succ_eq am env fid m n c off (n + 1) hneed hoff, hstep]
    simp only []
    have huse : min (n + 1) (chunkLen m (chunkStart m off) - (off - chunkStart m off))
        = n + 1 := by omega
    rw [huse]
    have hz : n + 1 - (n + 1) = 0 := by omega
    rw [hz, readAtLoop_zeroNeed]
    simp only []
    have hsub := refSlice_chunk_sub m (chunkStart m off)
      (chunkLen m (chunkStart m off)) off (n + 1) (chunkStart_le m off) hone
    rw [hsub, List.append_nil]
  · intro fs hmem m' hf
    exact commitRegion_mem am env henv.2 _ c hwf fs hmem m' hf
  · intro fs hmem m' hf hcs' hstart hsz off₂ need₂ h2a h2b
    have hentry := commitRegion_mem am env henv.2 _ c hwf fs hmem m' hf
    have hcl : chunkLen m' fs.2 ≤ m'.chunkSize := by
      unfold chunkLen; exact Nat.min_le_left _ _
    apply readAtLoop_allhit am env fs.1 m' hf hcs' need₂ _ off₂ need₂ hwf₁
      (le_refl need₂)
    intro x hx1 hx2
    have hxc : chunkStart m' x = fs.2 := by
      have h := chunkStart_eq_of_lt m' hcs' fs.2 x
        (by rw [← hstart]; omega) (by rw [← hstart]; omega)
      rw [← hstart] at h
      exact h
    rw [hxc]
    intro hnone
    rw [hentry] at hnone
    cases hnone

/-- `foo2` of `testPreReader` ("bb"). -/
def fooMeta2 : FileMeta := ⟨[98, 98], 10⟩

/-- `foo22` of `testPreReader` ("ccc"). -/
def fooMeta22 : FileMeta := ⟨[99, 99, 99], 10⟩

/-- `bar/bar.txt` of `testPreReader` ("aaa"). -/
def barMeta : FileMeta := ⟨[97, 97, 97], 10⟩

/-- Archive of `testPreReader`: three small files whose single chunks were
batched into one shared underlying region at archive build time. -/
def preArchive : ArchiveModel :=
  ⟨fun id =>
    if id = 2 then some fooMeta2
    else if id = 3 then some fooMeta22
    else if id = 4 then some barMeta
    else none,
   fun f s =>
    if (f = 2 ∨ f = 3 ∨ f = 4) ∧ s = 0 then [(2, 0), (3, 0), (4, 0)]
    else [(f, s)]⟩

/-- Witness for C10: a fresh read of `foo22` commits the whole shared
region, and afterwards `foo2`, `foo22` and `bar/bar.txt` are all served
from the cache alone. -/
theorem C10_preread_commits_region_neighbors_witness :
    ∃ c₁,
      readAt preArchive passEnv 3 fooMeta22 emptyCache 0 3
        = .ok (refSlice fooMeta22 0 3, c₁, 1) ∧
      (∀ fs ∈ preArchive.regionOf 3 (chunkStart fooMeta22 0),
        ∀ m', preArchive.files fs.1 = some m' →
        c₁ (fs.1, fs.2, chunkLen m' fs.2)
          = some (refSlice m' fs.2 (chunkLen m' fs.2))) ∧
      (∀ fs ∈ preArchive.regionOf 3 (chunkStart fooMeta22 0),
        ∀ m', preArchive.files fs.1 = some m' →
        0 < m'.chunkSize → fs.2 = chunkStart m' fs.2 → fs.2 < m'.size →
        ∀ off₂ need₂, fs.2 ≤ off₂ → off₂ + need₂ ≤ fs.2 + chunkLen m' fs.2 →
          readAt preArchive passEnv fs.1 m' c₁ off₂ need₂
            = .ok (refSlice m' off₂ (min need₂ (m'.size - off₂)), c₁, 0)) :=
  C10_preread_commits_region_neighbors preArchive passEnv 3 fooMeta22 emptyCache
    0 3 ⟨rfl, Or.inr fun _ _ => rfl⟩ (emptyCache_wf preArchive)
    (by decide) (by decide) (by decide) rfl

/-! ## Top-level reader: verification protocol (spec section 4.1).

The two-phase error protocol is modelled as a small state machine over the
verification state and the single-slot *Last verify error* cell; `Cache()`'s
per-entry processing, `VerifyTOC` and `SkipVerify` are modelled from the
spec, and the scenario of `testCacheVerify` (first entry processed before
the trust decision, second after, then a second whole `Cache()` pass) is
replayed against them together with the source's expected-behaviour
table. -/

/-- Verification state of an archive handle (spec section 3). -/
inductive VState where
  | unverified
  | verified
  | verifyFailed
  | skipVerify
deriving DecidableEq, Repr

/-- State of the top-level reader: verification state, whether the
*Last verify error* slot is occupied, and which regular-file entries are
already committed to the cache. -/
structure RState where
  v : VState
  lastErr : Bool
  cached : List Nat
deriving DecidableEq, Repr

/-- The state of a freshly opened reader. -/
def initState : RState := ⟨.unverified, false, []⟩

/-- Modelled from the spec: `Cache()`'s processing of one regular-file
entry `id` with the current verifier failure set `fails`.  An entry already
cached is skipped (idempotence); in `SkipVerify` state no verification runs
and the entry is cached; otherwise the entry is verified: a failure
observed before the trust decision (`Unverified`) is recorded into the
*Last verify error* slot without failing the call and the entry is not
committed, while a failure observed after resolution is a deep error of the
`Cache()` call itself; on success the entry is committed.  Returns the new
state and whether processing this entry succeeded. -/
def cacheEntry (fails : List Nat) (id : Nat) (s : RState) : RState × Bool :=
  if id ∈ s.cached then (s, true)
  else if s.v = .skipVerify then ({ s with cached := id :: s.cached }, true)
  else if id ∈ fails then
    if s.v = .unverified then ({ s with lastErr := true }, true)
    else (s, false)
  else ({ s with cached := id :: s.cached }, true)

/-- Modelled from the spec: `VerifyTOC(expectedDigest)`.  On TOC digest
mismatch the state becomes `VerifyFailed` and an error is returned; on a
match, any *Last verify error* recorded by background caching activity is
surfaced as this call's own failure; otherwise the state becomes
`Verified`.  Returns the new state and whether the call succeeded. -/
def verifyTOC (digestMatch : Bool) (s : RState) : RState × Bool :=
  if !digestMatch then ({ s with v := .verifyFailed }, false)
  else if s.lastErr then ({ s with v := .verifyFailed }, false)
  else ({ s with v := .verified }, true)

/-- Modelled from the spec: `SkipVerify()` - transitions to `SkipVerify`
unconditionally; it is total and cannot fail. -/
def skipVerifyOp (s : RState) : RState := { s with v := .skipVerify }

/-- The scenario of `testCacheVerify` (from `testutil.go`): entry 1 is
processed by a background `Cache()` before the trust decision (with the
verifier registered to fail for it iff `before`), then `VerifyTOC` (with a
matching TOC digest) or `SkipVerify` runs, then entry 2 is processed (with
the failure set re-registered to entry 2 iff `after`), and finally a second
`Cache()` pass re-walks both entries.  Returns which of the three observed
results failed: `(verify failed, first Cache failed, second Cache failed)`. -/
def scenario (skip before after : Bool) : Bool × Bool × Bool :=
  let fails0 : List Nat := if before then [1] else []
  let r1 := cacheEntry fails0 1 initState
  let r2 := if skip then (skipVerifyOp r1.1, true) else verifyTOC true r1.1
  let fails1 : List Nat := if after then [2] else fails0
  let r3 := cacheEntry fails1 2 r2.1
  let r4 := cacheEntry fails1 1 r3.1
  let r5 := cacheEntry fails1 2 r4.1
  (!r2.2, !(r1.2 && r3.2), !(r4.2 && r5.2))

/-- The expected-behaviour decision table of `testCacheVerify`
(`testutil.go` lines 312-325): `(wantVerifyFail, wantCacheFail,
wantCacheFail2)`. -/
def wantFlags (skip before after : Bool) : Bool × Bool × Bool :=
  if skip then (false, false, false)
  else if before then (true, false, false)
  else if after then (false, true, true)
  else (false, false, false)

/-- The modelled protocol reproduces the source's expected-behaviour table
on every result the test checks (after a verification failure the test
returns without checking the `Cache()` results). -/
theorem scenario_matches_wantFlags (skip before after : Bool) :
    (scenario skip before after).1 = (wantFlags skip before after).1 ∧
    ((wantFlags skip before after).1 = false →
      scenario skip before after = wantFlags skip before after) := by
  revert skip before after
  decide

/-- C3: with verification enabled, a chunk verifier failure observed by
background `Cache()` activity before `VerifyTOC` is recorded in the
*Last verify error* slot and makes the subsequent `VerifyTOC` call fail
even though the TOC digest itself matches; in particular the
`testCacheVerify` scenario with an invalid chunk before verification
reports a verification failure. -/
theorem C3_early_failure_surfaces_in_verifyTOC (s : RState) (fails : List Nat)
    (id : Nat) (hv : s.v = .unverified) (hfail : id ∈ fails)
    (hnc : id ∉ s.cached) :
    (cacheEntry fails id s).1.lastErr = true ∧
    (verifyTOC true (cacheEntry fails id s).1).2 = false ∧
    (∀ t : RState, t.lastErr = true → (verifyTOC true t).2 = false) ∧
    (scenario false true false).1 = true ∧
    (scenario false true true).1 = true := by
  have h2 : ∀ t : RState, t.lastErr = true → (verifyTOC true t).2 = false := by
    intro t ht
    simp [verifyTOC, ht]
  have h1 : (cacheEntry fails id s).1.lastErr = true := by
    simp [cacheEntry, hnc, hfail, hv]
  exact ⟨h1, h2 _ h1, h2, by decide, by decide⟩

/-- Witness for C3: the failure of entry 1 recorded before verification
makes `VerifyTOC` with a matching digest fail. -/
theorem C3_early_failure_surfaces_in_verifyTOC_witness :
    (cacheEntry [1] 1 initState).1.lastErr = true ∧
    (verifyTOC true (cacheEntry [1] 1 initState).1).2 = false ∧
    (∀ t : RState, t.lastErr = true → (verifyTOC true t).2 = false) ∧
    (scenario false true false).1 = true ∧
    (scenario false true true).1 = true :=
  C3_early_failure_surfaces_in_verifyTOC initState [1] 1 rfl (by decide)
    (by decide)

/-- C4: a chunk verifier failure introduced only after a successful
`VerifyTOC` leaves `VerifyTOC` successful, makes the `Cache()` call that
encounters the failing chunk return an error, and makes a second `Cache()`
call against the same persistently-invalid chunk fail again; in particular
the `testCacheVerify` scenario with an invalid chunk after verification
yields (verify ok, cache fails, second cache fails). -/
theorem C4_post_verify_failure_fails_cache_twice (s : RState) (fails : List Nat)
    (id : Nat) (hle : s.lastErr = false)
    (hfail : id ∈ fails) (hnc : id ∉ s.cached) :
    (verifyTOC true s).2 = true ∧
    (cacheEntry fails id (verifyTOC true s).1).2 = false ∧
    (cacheEntry fails id (cacheEntry fails id (verifyTOC true s).1).1).2 = false ∧
    scenario false false true = (false, true, true) := by
  refine ⟨?_, ?_, ?_, by decide⟩
  · simp [verifyTOC, hle]
  · simp [verifyTOC, cacheEntry, hle, hnc, hfail]
  · simp [verifyTOC, cacheEntry, hle, hnc, hfail]

/-- Witness for C4: entry 2 invalidated after a successful `VerifyTOC`
fails both `Cache()` passes. -/
theorem C4_post_verify_failure_fails_cache_twice_witness :
    (verifyTOC true initState).2 = true ∧
    (cacheEntry [2] 2 (verifyTOC true initState).1).2 = false ∧
    (cacheEntry [2] 2 (cacheEntry [2] 2 (verifyTOC true initState).1).1).2 = false ∧
    scenario false false true = (false, true, true) :=
  C4_post_verify_failure_fails_cache_twice initState [2] 2 rfl (by decide)
    (by decide)

theorem readChunkStep_skip_err (am : ArchiveModel) (env : Env) (fid : Nat)
    (m : FileMeta) (c : Cache) (cs cl : Nat) (e : Err)
    (hskip : env.skip = true)
    (h : readChunkStep am env fid m c cs cl = .error e) : e = Err.srcFail := by
  unfold readChunkStep at h
  split at h
  · cases h
  · split at h
    · split at h
      · cases h
      · next hcond =>
        rw [hskip] at hcond
        simp at hcond
    · injection h with h
      exact h.symm

/-- In the `SkipVerify` state a read never fails with a verification
error: verification never runs. -/
theorem readAtLoop_skip_no_verifyFail (am : ArchiveModel) (env : Env)
    (fid : Nat) (m : FileMeta) (hskip : env.skip = true) :
    ∀ (fuel : Nat) (c : Cache) (off need : Nat),
      readAtLoop am env fid m fuel c off need ≠ .error .verifyFail := by
  intro fuel
  induction fuel with
  | zero => intro c off need h; cases h
  | succ fuel ih =>
    intro c off need h
    rw [readAtLoop] at h
    split at h
    · cases h
    · split at h
      · cases h
      · next cs cl _ =>
        cases hstep : readChunkStep am env fid m c cs cl with
        | error e =>
          rw [hstep] at h
          injection h with h2
          have he := readChunkStep_skip_err am env fid m c cs cl e hskip hstep
          rw [he] at h2
          cases h2
        | ok t =>
          obtain ⟨data, c', k⟩ := t
          rw [hstep] at h
          simp only [] at h
          cases hrec : readAtLoop am env fid m fuel c'
              (off + min need (cl - (off - cs)))
              (need - min need (cl - (off - cs))) with
          | error e'' =>
            rw [hrec] at h
            injection h with h2
            exact ih _ _ _ (h2 ▸ hrec)
          | ok t' =>
            obtain ⟨rest, c'', k'⟩ := t'
            rw [hrec] at h
            cases h

/-- C5: after `SkipVerify()` chunk digest verification never runs:
`SkipVerify` transitions unconditionally (and cannot fail, being total),
every subsequent `Cache()` entry processing succeeds for every
configuration of verifier failures, the whole `testCacheVerify` scenario
under `skipVerify` reports no error anywhere, and no read ever returns a
verification error in the `SkipVerify` state. -/
theorem C5_skipVerify_disables_verification :
    (∀ s : RState, (skipVerifyOp s).v = .skipVerify) ∧
    (∀ (s : RState) (fails : List Nat) (id : Nat),
      s.v = .skipVerify → (cacheEntry fails id s).2 = true) ∧
    (∀ before after : Bool, scenario true before after = (false, false, false)) ∧
    (∀ (am : ArchiveModel) (env : Env) (fid : Nat) (m : FileMeta)
      (fuel : Nat) (c : Cache) (off need : Nat), env.skip = true →
      readAtLoop am env fid m fuel c off need ≠ .error .verifyFail) := by
  refine ⟨fun s => rfl, ?_, by decide, ?_⟩
  · intro s fails id hv
    by_cases hc : id ∈ s.cached
    · simp [cacheEntry, hc]
    · simp [cacheEntry, hc, hv]
  · intro am env fid m fuel c off need hskip
    exact readAtLoop_skip_no_verifyFail am env fid m hskip fuel c off need

/-- Witness for C5: entry processing in the `SkipVerify` state succeeds
even with every entry registered as failing, and the skip-verify scenario
reports no error. -/
theorem C5_skipVerify_disables_verification_witness :
    (cacheEntry [1, 2] 1 (skipVerifyOp initState)).2 = true ∧
    scenario true true true = (false, false, false) :=
  ⟨C5_skipVerify_disables_verification.2.1 (skipVerifyOp initState) [1, 2] 1 rfl,
   C5_skipVerify_disables_verification.2.2.1 true true⟩

/-! ## Batch chunk processor (spec section 4.4) and its audit.

The worker loop, the mock read, the chunk generators and the merge logic
are translated from `testProcessBatchChunks` in `testutil.go`; the
processor itself and `checkHoles` are modelled from the spec, with the
worker's treatment of short reads pinned down by the source test (its
hole scenario halves every mocked read size and still requires every
worker's batch call to succeed). -/

/-- A chunk to prefetch: archive offset, size, digest string and its
destination position in the shared buffer (as built by
`createNormalChunks`). -/
structure chunkData where
  offset : Nat
  size : Nat
  digestStr : String
  bufferPos : Nat
deriving DecidableEq, Repr

/-- A read record `(bufferPos, readSize)` produced by one worker for one
chunk it wrote into the shared buffer. -/
structure chunkReadInfo where
  bufferPos : Nat
  readSize : Nat
deriving DecidableEq, Repr

/-- `createNormalChunks` (from `testutil.go`): `totalChunks` disjoint
full-size chunks laid out consecutively in the shared buffer. -/
def createNormalChunks (chunkSize : Nat) (totalChunks : Nat) : List chunkData :=
  (List.range totalChunks).map fun i =>
    ⟨i * chunkSize, chunkSize, "sha256:" ++ toString i, i * chunkSize⟩

/-- `createOverlappingChunks` (from `testutil.go`): the normal chunks plus,
for every tenth index, one chunk duplicating an existing buffer position
and one chunk placed two slots ahead, producing overlapping byte ranges. -/
def createOverlappingChunks (chunkSize : Nat) (totalChunks : Nat) : List chunkData :=
  createNormalChunks chunkSize totalChunks ++
  (List.range totalChunks).flatMap fun i =>
    if 0 < i ∧ i % 10 = 0 then
      ⟨i * chunkSize - chunkSize / 2, chunkSize, "sha256:overlap-" ++ toString i,
        i * chunkSize⟩ ::
      (if i < totalChunks - 1 then
        [⟨(i + 1) * chunkSize + chunkSize / 2, chunkSize,
          "sha256:gap-" ++ toString i, (i + 2) * chunkSize⟩]
      else [])
    else []

/-- The chunk indices assigned to one worker: round-robin by index modulo
the worker count (spec section 4.4). -/
def workerIdxs (workerID workerCount len : Nat) : List Nat :=
  (List.range len).filter (fun i => i % workerCount = workerID)

/-- Modelled from the spec: one worker's processing of its assigned chunks
(`processBatchChunks` body).  Each assigned chunk is read from the
underlying source; a read error fails the whole batch call, otherwise a
read record `(bufferPos, bytesActuallyRead)` is appended - the source test
fixes that a short read (fewer bytes than the chunk size) is recorded
as-is rather than failing the batch, leaving it to the `checkHoles` audit. -/
def processIdxs (readRes : chunkData → Except Unit Nat) (chunks : List chunkData) :
    List Nat → Except Unit (List chunkReadInfo)
  | [] => .ok []
  | i :: rest =>
    match chunks[i]? with
    | none => processIdxs readRes chunks rest
    | some ch =>
      match readRes ch with
      | .error e => .error e
      | .ok n =>
        match processIdxs readRes chunks rest with
        | .error e => .error e
        | .ok rs => .ok (⟨ch.bufferPos, n⟩ :: rs)

/-- Modelled from the spec: `processBatchChunks` for worker `workerID` of
`workerCount`. -/
def processBatchChunks (readRes : chunkData → Except Unit Nat)
    (chunks : List chunkData) (workerID workerCount : Nat) :
    Except Unit (List chunkReadInfo) :=
  processIdxs readRes chunks (workerIdxs workerID workerCount chunks.length)

/-- The caller's merge (from `testProcessBatchChunks`): a worker's records
are merged only when its batch call returned no error; a failed worker
contributes nothing. -/
def mergeWorkerResults (results : List (Except Unit (List chunkReadInfo))) :
    List chunkReadInfo :=
  results.foldr (fun r acc => (match r with | .ok l => l | .error _ => []) ++ acc) []

/-- The whole `runTest` pipeline of `testProcessBatchChunks`: spawn
`min workerCount (number of chunks)` workers and merge the successful
workers' records. -/
def runTestMerged (readRes : chunkData → Except Unit Nat)
    (chunks : List chunkData) (workerCount : Nat) : List chunkReadInfo :=
  mergeWorkerResults ((List.range (min workerCount chunks.length)).map
    (fun w => processBatchChunks readRes chunks w workerCount))

/-- `mockFile.ReadAt` (from `testutil.go`): every read reports
`MockReadAtOutput` bytes read and no error. -/
def mockRead (mockN : Nat) : chunkData → Except Unit Nat := fun _ => .ok mockN

/-- Ordering of read records by buffer position. -/
def lePos (a b : chunkReadInfo) : Prop := a.bufferPos ≤ b.bufferPos

/-- Insertion into a position-sorted record list. -/
def insertByPos (r : chunkReadInfo) : List chunkReadInfo → List chunkReadInfo
  | [] => [r]
  | s :: t => if r.bufferPos ≤ s.bufferPos then r :: s :: t else s :: insertByPos r t

/-- Modelled from the spec: `checkHoles` sorts the merged records by
buffer position. -/
def sortByPos : List chunkReadInfo → List chunkReadInfo
  | [] => []
  | r :: t => insertByPos r (sortByPos t)

/-- The two audit failures of `checkHoles` (spec section 7). -/
inductive AuditErr where
  | hole
  | overlap
deriving DecidableEq, Repr

/-- Modelled from the spec: the scan of the sorted records - a record
starting past the running end is a hole, one starting before it is an
overlap, and a running end short of the buffer size at exhaustion is a
hole. -/
def scanRecords : Nat → Nat → List chunkReadInfo → Option AuditErr
  | e, size, [] => if e = size then none else some .hole
  | e, size, r :: rs =>
    if e < r.bufferPos then some .hole
    else if r.bufferPos < e then some .overlap
    else scanRecords (e + r.readSize) size rs

/-- Modelled from the spec: `checkHoles(mergedReadRecords, bufferSize)` -
audits that the read records exactly tile `[0, bufferSize)`. -/
def checkHoles (records : List chunkReadInfo) (bufferSize : Nat) : Option AuditErr :=
  scanRecords 0 bufferSize (sortByPos records)

/-! ### The exact-tiling characterisation of `checkHoles` -/

/-- Point `x` of the buffer is covered by some record. -/
def coversPt (rs : List chunkReadInfo) (x : Nat) : Prop :=
  ∃ r ∈ rs, r.bufferPos ≤ x ∧ x < r.bufferPos + r.readSize

/-- Two records write disjoint byte ranges. -/
def recDisjoint (a b : chunkReadInfo) : Prop :=
  a.bufferPos + a.readSize ≤ b.bufferPos ∨ b.bufferPos + b.readSize ≤ a.bufferPos

/-- The records tile `[a, size)`: every point of it is covered, no two
records overlap, and every record lies within `[a, size)`. -/
def tilesFrom (a : Nat) (rs : List chunkReadInfo) (size : Nat) : Prop :=
  (∀ x, a ≤ x → x < size → coversPt rs x) ∧
  List.Pairwise recDisjoint rs ∧
  (∀ r ∈ rs, a ≤ r.bufferPos ∧ r.bufferPos + r.readSize ≤ size)

/-- The records tile the buffer's whole address space `[0, bufferSize)`
with no uncovered region and no pairwise overlap. -/
def exactTiling (rs : List chunkReadInfo) (size : Nat) : Prop :=
  tilesFrom 0 rs size

theorem insertByPos_perm (r : chunkReadInfo) :
    ∀ l : List chunkReadInfo, (insertByPos r l).Perm (r :: l)
  | [] => List.Perm.refl _
  | s :: t => by
    unfold insertByPos
    split
    · exact List.Perm.refl _
    · exact ((insertByPos_perm r t).cons s).trans (List.Perm.swap r s t)

theorem sortByPos_perm : ∀ l : List chunkReadInfo, (sortByPos l).Perm l
  | [] => List.Perm.refl _
  | r :: t => (insertByPos_perm r (sortByPos t)).trans ((sortByPos_perm t).cons r)

theorem insertByPos_sorted (r : chunkReadInfo) :
    ∀ l : List chunkReadInfo, l.Pairwise lePos → (insertByPos r l).Pairwise lePos
  | [], _ => by simp [insertByPos, lePos]
  | s :: t, h => by
    unfold insertByPos
    obtain ⟨hs_all, ht_sorted⟩ := List.pairwise_cons.1 h
    split
    · next hle =>
      refine List.pairwise_cons.2 ⟨?_, h⟩
      intro x hx
      rcases List.mem_cons.1 hx with he | hxt
      · subst he; exact hle
      · exact Nat.le_trans hle (hs_all x hxt)
    · next hgt =>
      have hsr : s.bufferPos ≤ r.bufferPos := by omega
      refine List.pairwise_cons.2 ⟨?_, insertByPos_sorted r t ht_sorted⟩
      intro x hx
      rcases List.mem_cons.1 ((insertByPos_perm r t).mem_iff.1 hx) with he | hxt
      · subst he; exact hsr
      · exact hs_all x hxt

theorem sortByPos_sorted : ∀ l : List chunkReadInfo, (sortByPos l).Pairwise lePos
  | [] => List.Pairwise.nil
  | r :: t => insertByPos_sorted r (sortByPos t) (sortByPos_sorted t)

theorem scanRecords_none_le : ∀ (rs : List chunkReadInfo) (e size : Nat),
    scanRecords e size rs = none → e ≤ size
  | [], e, size, h => by
    unfold scanRecords at h
    split at h
    · next heq => omega
    · cases h
  | r :: rs, e, size, h => by
    unfold scanRecords at h
    split at h
    · cases h
    · split at h
      · cases h
      · have := scanRecords_none_le rs (e + r.readSize) size h
        omega

theorem scanRecords_none_tilesFrom : ∀ (rs : List chunkReadInfo) (e size : Nat),
    scanRecords e size rs = none → tilesFrom e rs size
  | [], e, size, h => by
    unfold scanRecords at h
    split at h
    · next heq =>
      refine ⟨?_, List.Pairwise.nil, ?_⟩
      · intro x hx1 hx2
        exact absurd hx2 (by omega)
      · intro r hr; cases hr
    · cases h
  | r :: rs, e, size, h => by
    unfold scanRecords at h
    split at h
    · cases h
    · split at h
      · cases h
      · next h1 h2 =>
        have hre : r.bufferPos = e := by omega
        obtain ⟨hc, hpw, hb⟩ := scanRecords_none_tilesFrom rs (e + r.readSize) size h
        have hle := scanRecords_none_le rs (e + r.readSize) size h
        refine ⟨?_, ?_, ?_⟩
        · intro x hx1 hx2
          by_cases hxr : x < e + r.readSize
          · exact ⟨r, List.mem_cons_self r rs, by omega⟩
          · obtain ⟨q, hq, hqc⟩ := hc x (by omega) hx2
            exact ⟨q, List.mem_cons_of_mem r hq, hqc⟩
        · refine List.pairwise_cons.2 ⟨?_, hpw⟩
          intro q hq
          have hql := (hb q hq).1
          exact Or.inl (by omega)
        · intro q hq
          rcases List.mem_cons.1 hq with he | hq'
          · subst he
            exact ⟨by omega, by omega⟩
          · obtain ⟨hq1, hq2⟩ := hb q hq'
            exact ⟨by omega, hq2⟩

theorem tilesFrom_scan : ∀ (rs : List chunkReadInfo) (e size : Nat),
    rs.Pairwise lePos → (∀ r ∈ rs, 0 < r.readSize) → e ≤ size →
    tilesFrom e rs size → scanRecords e size rs = none
  | [], e, size, _, _, hes, ht => by
    obtain ⟨hc, _, _⟩ := ht
    unfold scanRecords
    have heq : e = size := by
      by_contra hne
      obtain ⟨q, hq, _⟩ := hc e (le_refl e) (by omega)
      cases hq
    rw [if_pos heq]
  | r :: rs, e, size, hsort, hpos, hes, ht => by
    obtain ⟨hc, hpw, hb⟩ := ht
    have hrpos : 0 < r.readSize := hpos r (List.mem_cons_self r rs)
    obtain ⟨hbr1, hbr2⟩ := hb r (List.mem_cons_self r rs)
    have helt : e < size := by omega
    obtain ⟨q, hq, hqc⟩ := hc e (le_refl e) helt
    have hqe : q.bufferPos = e := by
      have := (hb q hq).1
      omega
    have hre : r.bufferPos = e := by
      rcases List.mem_cons.1 hq with he | hq'
      · rw [← he, hqe]
      · have hrq := (List.pairwise_cons.1 hsort).1 q hq'
        unfold lePos at hrq
        omega
    obtain ⟨hdis_all, hdis_tail⟩ := List.pairwise_cons.1 hpw
    have htail : tilesFrom (e + r.readSize) rs size := by
      refine ⟨?_, hdis_tail, ?_⟩
      · intro x hx1 hx2
        obtain ⟨q', hq', hq'c⟩ := hc x (by omega) hx2
        rcases List.mem_cons.1 hq' with he | hq''
        · subst he
          omega
        · exact ⟨q', hq'', hq'c⟩
      · intro q' hq'
        have hd := hdis_all q' hq'
        unfold recDisjoint at hd
        have hq'pos : 0 < q'.readSize := hpos q' (List.mem_cons_of_mem r hq')
        obtain ⟨hq'1, hq'2⟩ := hb q' (List.mem_cons_of_mem r hq')
        rcases hd with hd | hd
        · exact ⟨by omega, hq'2⟩
        · exact absurd hd (by omega)
    unfold scanRecords
    rw [if_neg (by omega), if_neg (by omega)]
    exact tilesFrom_scan rs (e + r.readSize) size
      (List.pairwise_cons.1 hsort).2
      (fun q' hq' => hpos q' (List.mem_cons_of_mem r hq')) (by omega) htail

theorem tilesFrom_of_perm (a size : Nat) (rs rs' : List chunkReadInfo)
    (hp : rs.Perm rs') (h : tilesFrom a rs size) : tilesFrom a rs' size := by
  obtain ⟨h1, h2, h3⟩ := h
  refine ⟨?_, ?_, ?_⟩
  · intro x hx1 hx2
    obtain ⟨r, hr, hcov⟩ := h1 x hx1 hx2
    exact ⟨r, hp.mem_iff.1 hr, hcov⟩
  · exact (hp.pairwise_iff (fun {a b} hab => Or.symm hab)).1 h2
  · intro r hr
    exact h3 r (hp.mem_iff.2 hr)

/-- `checkHoles` accepts exactly the record sets that tile the buffer. -/
theorem checkHoles_none_iff (records : List chunkReadInfo) (size : Nat)
    (hpos : ∀ r ∈ records, 0 < r.readSize) :
    checkHoles records size = none ↔ exactTiling records size := by
  unfold checkHoles exactTiling
  have hperm := sortByPos_perm records
  constructor
  · intro h
    exact tilesFrom_of_perm 0 size _ _ hperm
      (scanRecords_none_tilesFrom (sortByPos records) 0 size h)
  · intro h
    exact tilesFrom_scan (sortByPos records) 0 size (sortByPos_sorted records)
      (fun r hr => hpos r (hperm.mem_iff.1 hr)) (Nat.zero_le size)
      (tilesFrom_of_perm 0 size _ _ hperm.symm h)

/-- C6: `checkHoles(mergedReadRecords, bufferSize)` returns no error
exactly when the records (all of positive length) tile the buffer's
address space `[0, bufferSize)` with no uncovered region and no pairwise
overlap; concretely, on the three scenarios of `testProcessBatchChunks`
(100 disjoint 4 MiB chunks into a 400 MiB buffer processed by 10 workers):
full-size reads give no error, halving every read gives a hole error, and
adding overlapping chunk ranges gives an overlap error. -/
theorem C6_checkHoles_exact_tiling :
    (∀ (records : List chunkReadInfo) (size : Nat),
      (∀ r ∈ records, 0 < r.readSize) →
      (checkHoles records size = none ↔ exactTiling records size)) ∧
    checkHoles (runTestMerged (mockRead 4194304) (createNormalChunks 4194304 100) 10)
      419430400 = none ∧
    checkHoles (runTestMerged (mockRead 2097152) (createNormalChunks 4194304 100) 10)
      419430400 = some .hole ∧
    checkHoles (runTestMerged (mockRead 4194304) (createOverlappingChunks 4194304 100) 10)
      419430400 = some .overlap :=
  ⟨checkHoles_none_iff,
   by set_option maxRecDepth 100000 in decide,
   by set_option maxRecDepth 100000 in decide,
   by set_option maxRecDepth 100000 in decide⟩

/-- Witness for C6: the 100 full-size read records of the normal scenario
tile the 400 MiB buffer exactly. -/
theorem C6_checkHoles_exact_tiling_witness :
    exactTiling (runTestMerged (mockRead 4194304) (createNormalChunks 4194304 100) 10)
      419430400 :=
  (C6_checkHoles_exact_tiling.1
    (runTestMerged (mockRead 4194304) (createNormalChunks 4194304 100) 10)
    419430400 (by decide)).1 C6_checkHoles_exact_tiling.2.1

/-- C7 counterexample: an individual chunk read that returns fewer bytes
than the chunk's size (2 MiB returned for a 4 MiB chunk) does not make the
worker's batch call report failure - the call succeeds and records the
actual byte count, contradicting the claim's short-read clause. -/
theorem C7_counterexample_short_read_succeeds :
    processBatchChunks (mockRead 2097152) (createNormalChunks 4194304 1) 0 1
      = .ok [⟨0, 2097152⟩] := rfl

theorem processIdxs_error_iff (readRes : chunkData → Except Unit Nat)
    (chunks : List chunkData) : ∀ idxs : List Nat,
    processIdxs readRes chunks idxs = .error () ↔
      ∃ i ∈ idxs, ∃ ch, chunks[i]? = some ch ∧ readRes ch = .error ()
  | [] => by simp [processIdxs]
  | i :: rest => by
    unfold processIdxs
    cases hci : chunks[i]? with
    | none =>
      simp only []
      rw [processIdxs_error_iff readRes chunks rest]
      constructor
      · rintro ⟨j, hj, hch⟩
        exact ⟨j, List.mem_cons_of_mem i hj, hch⟩
      · rintro ⟨j, hj, ch, hch, he⟩
        rcases List.mem_cons.1 hj with heq | hj'
        · subst heq; rw [hci] at hch; cases hch
        · exact ⟨j, hj', ch, hch, he⟩
    | some ch =>
      simp only []
      cases hre : readRes ch with
      | error e =>
        cases e
        simp only []
        constructor
        · intro _
          exact ⟨i, List.mem_cons_self i rest, ch, hci, hre⟩
        · intro _; trivial
      | ok n =>
        simp only []
        cases hrest : processIdxs readRes chunks rest with
        | error e =>
          cases e
          simp only []
          constructor
          · intro _
            obtain ⟨j, hj, hch⟩ := (processIdxs_error_iff readRes chunks rest).1 hrest
            exact ⟨j, List.mem_cons_of_mem i hj, hch⟩
          · intro _; trivial
        | ok rs =>
          simp only []
          constructor
          · intro h; cases h
          · rintro ⟨j, hj, ch', hch', he'⟩
            exfalso
            rcases List.mem_cons.1 hj with heq | hj'
            · subst heq
              rw [hci] at hch'
              injection hch' with hch'
              subst hch'
              rw [hre] at he'
              cases he'
            · have hcontr := (processIdxs_error_iff readRes chunks rest).2
                ⟨j, hj', ch', hch', he'⟩
              rw [hrest] at hcontr
              cases hcontr

theorem processIdxs_ok_map (n : chunkData → Nat) (chunks : List chunkData) :
    ∀ idxs : List Nat,
    processIdxs (fun ch => .ok (n ch)) chunks idxs
      = .ok (idxs.filterMap
          (fun i => (chunks[i]?).map (fun ch => ⟨ch.bufferPos, n ch⟩)))
  | [] => rfl
  | i :: rest => by
    unfold processIdxs
    cases hci : chunks[i]? with
    | none =>
      simp only []
      rw [processIdxs_ok_map n chunks rest]
      simp [List.filterMap_cons, hci]
    | some ch =>
      simp only []
      rw [processIdxs_ok_map n chunks rest]
      simp [List.filterMap_cons, hci]

theorem mergeWorkerResults_error_middle :
    ∀ (rs₁ rs₂ : List (Except Unit (List chunkReadInfo))),
    mergeWorkerResults (rs₁ ++ .error () :: rs₂)
      = mergeWorkerResults rs₁ ++ mergeWorkerResults rs₂ := by
  intro rs₁ rs₂
  induction rs₁ with
  | nil => simp [mergeWorkerResults]
  | cons r rs₁ ih =>
    simp only [mergeWorkerResults, List.cons_append, List.foldr_cons] at *
    rw [ih, List.append_assoc]

/-- C7 (amended): a worker's batch call fails exactly when some assigned
chunk read returns an error - a read that merely returns fewer bytes than
the chunk's size succeeds and is recorded with the actual byte count (the
shortfall is caught later by the `checkHoles` audit); when a worker fails,
the caller merges none of its records while every other worker's
contribution is unchanged.  Every worker of the halved-read scenario of
`testProcessBatchChunks` succeeds, as that test requires. -/
theorem C7_amended_batch_failure :
    (∀ (readRes : chunkData → Except Unit Nat) (chunks : List chunkData)
      (workerID workerCount : Nat),
      processBatchChunks readRes chunks workerID workerCount = .error () ↔
      ∃ i ∈ workerIdxs workerID workerCount chunks.length,
        ∃ ch, chunks[i]? = some ch ∧ readRes ch = .error ()) ∧
    (∀ (n : chunkData → Nat) (chunks : List chunkData)
      (workerID workerCount : Nat),
      processBatchChunks (fun ch => .ok (n ch)) chunks workerID workerCount
        = .ok ((workerIdxs workerID workerCount chunks.length).filterMap
            (fun i => (chunks[i]?).map (fun ch => ⟨ch.bufferPos, n ch⟩)))) ∧
    (∀ (rs₁ rs₂ : List (Except Unit (List chunkReadInfo))),
      mergeWorkerResults (rs₁ ++ .error () :: rs₂)
        = mergeWorkerResults rs₁ ++ mergeWorkerResults rs₂) ∧
    (∀ w, w < 10 → ∃ rs, processBatchChunks (mockRead 2097152)
      (createNormalChunks 4194304 100) w 10 = .ok rs) :=
  ⟨fun readRes chunks workerID workerCount =>
    processIdxs_error_iff readRes chunks (workerIdxs workerID workerCount chunks.length),
   fun n chunks workerID workerCount =>
    processIdxs_ok_map n chunks (workerIdxs workerID workerCount chunks.length),
   mergeWorkerResults_error_middle,
   fun w _ =>
    ⟨_, processIdxs_ok_map (fun _ => 2097152) (createNormalChunks 4194304 100)
      (workerIdxs w 10 (createNormalChunks 4194304 100).length)⟩⟩

/-- A reader whose every chunk read returns an error. -/
def failRead : chunkData → Except Unit Nat := fun _ => .error ()

/-- Witness for C7 (amended): a worker whose single assigned read errors
fails its batch, and the caller's merge drops exactly that worker's
contribution. -/
theorem C7_amended_batch_failure_witness :
    (processBatchChunks failRead (createNormalChunks 4194304 1) 0 1
        = .error () ↔
      ∃ i ∈ workerIdxs 0 1 (createNormalChunks 4194304 1).length,
        ∃ ch, (createNormalChunks 4194304 1)[i]? = some ch ∧
          failRead ch = Except.error ()) ∧
    mergeWorkerResults ([.ok [⟨0, 4194304⟩]] ++ .error () :: [.ok [⟨8388608, 4194304⟩]])
      = mergeWorkerResults [.ok [⟨0, 4194304⟩]]
        ++ mergeWorkerResults [.ok [⟨8388608, 4194304⟩]] :=
  ⟨C7_amended_batch_failure.1 failRead (createNormalChunks 4194304 1) 0 1,
   C7_amended_batch_failure.2.2.1 [.ok [⟨0, 4194304⟩]] [.ok [⟨8388608, 4194304⟩]]⟩

end StargzReader
